import Mathlib

/-!
Verification of the `my_regex` engine: a shallow embedding of the Rust
pipeline lexer → concatenation inserter → shunting-yard converter →
Thompson NFA builder → thread-set NFA simulator with capture tracking.

Patterns and haystacks are modelled as lists of bytes (`List Nat`).
Fallible Rust functions returning `Result<_, Error>` become
`Except RError _`.  The matcher's worklist loop is given explicit fuel;
concrete claims are evaluated at an ample fuel value, and universally
quantified matcher claims are proved for every fuel.
-/

set_option maxRecDepth 100000

/-- Error kinds, mirroring `error.rs::ErrorKind`. -/
inductive ErrorKind where
  | UnexpectedEof
  | UnexpectedToken (c : Char)
  | UnbalancedParen
  | UnbalancedClass
  | EmptyClass
  | BadRange (lo hi : Char)
  | DanglingQuantifier
deriving DecidableEq, Repr

/-- Compile error, mirroring `error.rs::Error`: a kind plus a byte position. -/
structure RError where
  kind : ErrorKind
  pos : Nat
deriving DecidableEq, Repr

/-- Tokens of the lexer/converter, mirroring `token.rs::Token`.
`ranges` are `(lo, hi)` byte pairs; `neg` marks a negated class. -/
inductive Token where
  | Char (b : Nat)
  | Dot
  | LParen
  | RParen
  | Alt
  | Star
  | Plus
  | Qmark
  | Class (ranges : List (Nat × Nat)) (neg : Bool)
  | Concat
  | CapStart (gid : Nat)
  | CapEnd (gid : Nat)
deriving DecidableEq, Repr

/-- Preset classes for escapes, mirroring `token.rs::predefined_class`. -/
def predefined_class (esc : Nat) : Option (List (Nat × Nat) × Bool) :=
  if esc = 100 then  -- 'd'
    some ([(48, 57)], false)
  else if esc = 68 then  -- 'D'
    some ([(48, 57)], true)
  else if esc = 115 then  -- 's'
    some ([(32, 32), (9, 9), (10, 10), (13, 13), (0x0B, 0x0B), (0x0C, 0x0C)], false)
  else if esc = 83 then  -- 'S'
    some ([(32, 32), (9, 9), (10, 10), (13, 13), (0x0B, 0x0B), (0x0C, 0x0C)], true)
  else if esc = 119 then  -- 'w'
    some ([(48, 57), (65, 90), (97, 122), (95, 95)], false)
  else if esc = 87 then  -- 'W'
    some ([(48, 57), (65, 90), (97, 122), (95, 95)], true)
  else
    none

/-- The scanning loop of `token.rs::parse_class`, after the optional leading
`^` has been consumed.  `l` is the remaining pattern, `pos` the absolute byte
position of its head, `ranges` the ranges collected so far, and `first` is
true exactly when no content byte has been consumed yet (the source tests
`i > start`).  A byte `c1` followed by `-` followed by a byte other than `]`
forms a range; otherwise `c1` is a singleton.  Returns the class token, the
remaining pattern after the closing `]`, and the next absolute position. -/
def classBody (neg : Bool) :
    List Nat → Nat → List (Nat × Nat) → Bool →
    Except RError (Token × List Nat × Nat)
  | [], pos, _, _ => .error ⟨.UnbalancedClass, pos⟩
  | c :: 45 :: c2 :: rest2, pos, ranges, first =>
    if c = 93 ∧ ¬ first then
      -- closing ']' strictly after the first content byte
      .ok (.Class ranges neg, 45 :: c2 :: rest2, pos + 1)
    else if c2 ≠ 93 then
      -- a range `c1-c2` (the byte after '-' exists and is not ']')
      classBody neg rest2 (pos + 3) (ranges ++ [(c, c2)]) false
    else
      classBody neg (45 :: c2 :: rest2) (pos + 1) (ranges ++ [(c, c)]) false
  | c :: rest, pos, ranges, first =>
    -- `rest` does not start with a usable `-x` range continuation
    if c = 93 ∧ ¬ first then
      .ok (.Class ranges neg, rest, pos + 1)
    else
      classBody neg rest (pos + 1) (ranges ++ [(c, c)]) false

/-- `token.rs::parse_class`: handle the optional leading `^`, then scan the
class body. -/
def parse_class (rest : List Nat) (pos : Nat) :
    Except RError (Token × List Nat × Nat) :=
  match rest with
  | c :: rest2 =>
    if c = 94 then
      classBody true rest2 (pos + 1) [] true
    else
      classBody false (c :: rest2) pos [] true
  | [] => classBody false [] pos [] true

/-- `token.rs::tokenize`, as a recursion over the remaining pattern bytes
(`pos` is the absolute position of the head, used for error positions).
The structural `fuel` only bounds the recursion depth: every step consumes
at least one byte, so the initial fuel `pattern.length` supplied by
`tokenize` is never exhausted and the fuel-0 branch is unreachable. -/
def tokenizeAux : Nat → List Nat → Nat → Except RError (List Token)
  | _, [], _ => .ok []
  | 0, _ :: _, _ => .ok []  -- unreachable from `tokenize`
  | fuel + 1, c :: rest, pos =>
    if c = 92 then  -- backslash
      match rest with
      | [] => .error ⟨.UnexpectedEof, pos + 1⟩
      | esc :: rest2 =>
        match predefined_class esc with
        | some (ranges, neg) => do
          let ts ← tokenizeAux fuel rest2 (pos + 2)
          .ok (Token.Class ranges neg :: ts)
        | none => do
          let b : Nat :=
            if esc = 116 then 9        -- 't'
            else if esc = 110 then 10  -- 'n'
            else if esc = 114 then 13  -- 'r'
            else esc
          let ts ← tokenizeAux fuel rest2 (pos + 2)
          .ok (Token.Char b :: ts)
    else if c = 46 then do  -- '.'
      let ts ← tokenizeAux fuel rest (pos + 1)
      .ok (Token.Dot :: ts)
    else if c = 40 then do  -- '('
      let ts ← tokenizeAux fuel rest (pos + 1)
      .ok (Token.LParen :: ts)
    else if c = 41 then do  -- ')'
      let ts ← tokenizeAux fuel rest (pos + 1)
      .ok (Token.RParen :: ts)
    else if c = 124 then do  -- '|'
      let ts ← tokenizeAux fuel rest (pos + 1)
      .ok (Token.Alt :: ts)
    else if c = 42 then do  -- '*'
      let ts ← tokenizeAux fuel rest (pos + 1)
      .ok (Token.Star :: ts)
    else if c = 43 then do  -- '+'
      let ts ← tokenizeAux fuel rest (pos + 1)
      .ok (Token.Plus :: ts)
    else if c = 63 then do  -- '?'
      let ts ← tokenizeAux fuel rest (pos + 1)
      .ok (Token.Qmark :: ts)
    else if c = 91 then  -- '['
      match parse_class rest (pos + 1) with
      | .error e => .error e
      | .ok (tok, rest2, pos2) => do
        let ts ← tokenizeAux fuel rest2 pos2
        .ok (tok :: ts)
    else do
      let ts ← tokenizeAux fuel rest (pos + 1)
      .ok (Token.Char c :: ts)

/-- `token.rs::tokenize`. -/
def tokenize (pattern : List Nat) : Except RError (List Token) :=
  tokenizeAux pattern.length pattern 0

/-- `parse.rs::insert_concat::is_atom_start`. -/
def is_atom_start (t : Token) : Bool :=
  match t with
  | .Char _ | .Dot | .LParen | .Class _ _ => true
  | _ => false

/-- `parse.rs::insert_concat::is_atom_end`. -/
def is_atom_end (t : Token) : Bool :=
  match t with
  | .Char _ | .Dot | .RParen | .Class _ _ | .Star | .Plus | .Qmark => true
  | _ => false

/-- The loop of `parse.rs::insert_concat`: walk the tokens keeping the
previous token, inserting `Concat` between an atom end and an atom start. -/
def insertConcatAux : Option Token → List Token → List Token
  | _, [] => []
  | prev, t :: rest =>
    match prev with
    | some p =>
      if is_atom_end p ∧ is_atom_start t then
        Token.Concat :: t :: insertConcatAux (some t) rest
      else
        t :: insertConcatAux (some t) rest
    | none => t :: insertConcatAux (some t) rest

/-- `parse.rs::insert_concat`. -/
def insert_concat (tokens : List Token) : List Token :=
  insertConcatAux none tokens

/-- Operator-stack entries of `parse.rs::to_postfix::Op`. -/
inductive Op where
  | LParen (gid mark : Nat)
  | Bin (t : Token)
deriving DecidableEq, Repr

/-- `parse.rs::to_postfix::is_bin_op`. -/
def is_bin_op (t : Token) : Bool :=
  match t with
  | .Concat | .Alt => true
  | _ => false

/-- `parse.rs::to_postfix::precedence`. -/
def precedence (op : Token) : Nat :=
  match op with
  | .Concat => 2
  | .Alt => 1
  | _ => 0

/-- Converter state: output so far, operator stack (top at head), the two
operand-tracking flags, and the next capture-group id (1-based). -/
structure PfSt where
  out : List Token
  stack : List (Op × Nat)
  last_was_operand : Bool
  last_was_quant : Bool
  next_group_id : Nat
deriving DecidableEq, Repr

/-- The `RParen` arm's inner loop: pop operators to the output until the
`LParen` sentinel is found; a missing sentinel is `UnbalancedParen`. -/
def popToLParen : List (Op × Nat) → List Token → Nat →
    Except RError (Nat × Nat × List (Op × Nat) × List Token)
  | [], _, i => .error ⟨.UnbalancedParen, i⟩
  | (Op.LParen gid mark, _) :: rest, out, _ => .ok (gid, mark, rest, out)
  | (Op.Bin b, _) :: rest, out, i => popToLParen rest (out ++ [b]) i

/-- The binary-operator arm's inner loop: pop stacked binary operators of
greater-or-equal precedence to the output. -/
def popBinGE (t : Token) : List (Op × Nat) → List Token →
    List (Op × Nat) × List Token
  | [], out => ([], out)
  | (Op.Bin op2, p) :: rest, out =>
    if is_bin_op op2 ∧ precedence op2 ≥ precedence t then
      popBinGE t rest (out ++ [op2])
    else
      ((Op.Bin op2, p) :: rest, out)
  | (Op.LParen gid mark, p) :: rest, out => ((Op.LParen gid mark, p) :: rest, out)

/-- One iteration of the `parse.rs::to_postfix` loop on token `t` at index
`i`. -/
def postfixStep (st : PfSt) (i : Nat) (t : Token) : Except RError PfSt :=
  match t with
  | .Char _ | .Dot | .Class _ _ =>
    .ok { st with out := st.out ++ [t], last_was_operand := true,
                  last_was_quant := false }
  | .LParen =>
    let gid := st.next_group_id
    let out := st.out ++ [Token.CapStart gid]
    let mark := out.length
    .ok { out := out,
          stack := (Op.LParen gid mark, i) :: st.stack,
          last_was_operand := true,
          last_was_quant := false,
          next_group_id := gid + 1 }
  | .RParen => do
    let (gid, mark, stack, out) ← popToLParen st.stack st.out i
    let produced := out.length - mark
    let out :=
      if produced = 0 then
        out ++ [Token.CapEnd gid, Token.Concat]
      else
        out ++ [Token.Concat, Token.CapEnd gid, Token.Concat]
    .ok { st with out := out, stack := stack, last_was_operand := true,
                  last_was_quant := false }
  | .Star | .Plus | .Qmark =>
    if ¬ st.last_was_operand then
      .error ⟨.DanglingQuantifier, i⟩
    else if st.last_was_quant then
      .error ⟨.DanglingQuantifier, i⟩
    else
      .ok { st with out := st.out ++ [t], last_was_operand := true,
                    last_was_quant := true }
  | .Concat | .Alt =>
    let (stack, out) := popBinGE t st.stack st.out
    .ok { st with out := out, stack := (Op.Bin t, i) :: stack,
                  last_was_operand := false, last_was_quant := false }
  | .CapStart _ | .CapEnd _ =>
    .error ⟨.UnexpectedToken '^', i⟩

/-- The final flush of `parse.rs::to_postfix`: pop remaining operators; a
leftover `LParen` sentinel is `UnbalancedParen` at its recorded position. -/
def flushStack : List (Op × Nat) → List Token → Except RError (List Token)
  | [], out => .ok out
  | (Op.LParen _ _, p) :: _, _ => .error ⟨.UnbalancedParen, p⟩
  | (Op.Bin b, _) :: rest, out => flushStack rest (out ++ [b])

/-- `parse.rs::to_postfix`: fold the step over the (indexed) tokens, then
flush the operator stack. -/
def toPostfix (tokens : List Token) : Except RError (List Token) := do
  let init : PfSt := ⟨[], [], false, false, 1⟩
  let st ← tokens.enum.foldlM (fun st it => postfixStep st it.1 it.2) init
  flushStack st.stack st.out

/-- Edge labels, mirroring `nfa.rs::Label`. -/
inductive Label where
  | Eps
  | Byte (b : Nat)
  | Any
  | Class (ranges : List (Nat × Nat)) (neg : Bool)
  | CapBegin (gid : Nat)
  | CapEnd (gid : Nat)
deriving DecidableEq, Repr

/-- A finalized NFA state, mirroring `nfa.rs::State`: an ordered list of
labeled edges with resolved targets. -/
structure State where
  edges : List (Label × Nat)
deriving DecidableEq, Repr

/-- Finalized NFA, mirroring `nfa.rs::Nfa`. -/
structure Nfa where
  states : List State
  start : Nat
  accept : Nat
deriving DecidableEq, Repr

/-- Builder edge, mirroring `nfa.rs::build_nfa::EdgeBuilder`: the target
(`to` in the source; renamed since `to` is a Lean keyword) is `none` while
the edge is an unpatched hole. -/
structure EdgeB where
  label : Label
  tgt : Option Nat
deriving DecidableEq, Repr

/-- Builder state, mirroring `nfa.rs::build_nfa::StateBuilder`. -/
structure StateB where
  edges : List EdgeB
deriving DecidableEq, Repr

/-- A fragment, mirroring `nfa.rs::build_nfa::Frag`: entry state plus the
holes `(state_id, edge_index)` awaiting a target. -/
structure Frag where
  start : Nat
  outs : List (Nat × Nat)
deriving DecidableEq, Repr

/-- Set the target of one hole (`nfa.rs::build_nfa::patch`, single step).
Out-of-range coordinates leave the vector unchanged; the builder invariant
(proved below) guarantees they are always in range, matching the Rust code's
unchecked indexing. -/
def patchOne (states : List StateB) (h : Nat × Nat) (target : Nat) :
    List StateB :=
  match states[h.1]? with
  | some sb =>
    match sb.edges[h.2]? with
    | some e => states.set h.1 ⟨sb.edges.set h.2 ⟨e.label, some target⟩⟩
    | none => states
  | none => states

/-- `nfa.rs::build_nfa::patch`: point every hole in the list at `target`. -/
def patch (states : List StateB) (holes : List (Nat × Nat)) (target : Nat) :
    List StateB :=
  match holes with
  | [] => states
  | h :: rest => patch (patchOne states h target) rest target

/-- `nfa.rs::build_nfa::edge_to` (append a resolved edge) generalized to an
optional target; used for state 0 only.  Out-of-range `sid` is a no-op. -/
def addEdge (states : List StateB) (sid : Nat) (label : Label)
    (tgt : Option Nat) : List StateB :=
  match states[sid]? with
  | some sb => states.set sid ⟨sb.edges ++ [⟨label, tgt⟩]⟩
  | none => states

/-- `nfa.rs::build_nfa::op_char`. -/
def op_char (t : Token) : Char :=
  match t with
  | .Alt => '|'
  | .Concat => '·'
  | .Star => '*'
  | .Plus => '+'
  | .Qmark => '?'
  | .LParen => '('
  | .RParen => ')'
  | .Dot => '.'
  | .Char c => Char.ofNat c
  | .Class _ _ => ']'
  | .CapStart _ => '('
  | .CapEnd _ => ')'

/-- `nfa.rs::build_nfa::make_unary_frag`: one new state with a single
unpatched edge carrying `label`. -/
def make_unary_frag (states : List StateB) (label : Label) :
    List StateB × Frag :=
  let s := states.length
  (states ++ [⟨[⟨label, none⟩]⟩], ⟨s, [(s, 0)]⟩)

/-- One iteration of the Thompson-composition loop of `nfa.rs::build_nfa`,
acting on the builder states and the fragment stack (top at head). -/
def nfaStep (acc : List StateB × List Frag) (i : Nat) (t : Token) :
    Except RError (List StateB × List Frag) :=
  let (states, st) := acc
  match t with
  | .Char b =>
    let (states, f) := make_unary_frag states (.Byte b)
    .ok (states, f :: st)
  | .Dot =>
    let (states, f) := make_unary_frag states .Any
    .ok (states, f :: st)
  | .Class ranges neg =>
    let (states, f) := make_unary_frag states (.Class ranges neg)
    .ok (states, f :: st)
  | .CapStart gid =>
    let (states, f) := make_unary_frag states (.CapBegin gid)
    .ok (states, f :: st)
  | .CapEnd gid =>
    let (states, f) := make_unary_frag states (.CapEnd gid)
    .ok (states, f :: st)
  | .Concat =>
    match st with
    | b :: a :: rest =>
      let states := patch states a.outs b.start
      .ok (states, Frag.mk a.start b.outs :: rest)
    | _ => .error ⟨.UnexpectedToken (op_char t), i⟩
  | .Alt =>
    match st with
    | b :: a :: rest =>
      let s := states.length
      let states := states ++ [⟨[⟨.Eps, some a.start⟩, ⟨.Eps, some b.start⟩]⟩]
      .ok (states, Frag.mk s (a.outs ++ b.outs) :: rest)
    | _ => .error ⟨.UnexpectedToken (op_char t), i⟩
  | .Star =>
    match st with
    | a :: rest =>
      let s := states.length
      let states := states ++ [⟨[⟨.Eps, some a.start⟩, ⟨.Eps, none⟩]⟩]
      let states := patch states a.outs s
      .ok (states, Frag.mk s [(s, 1)] :: rest)
    | _ => .error ⟨.UnexpectedToken (op_char t), i⟩
  | .Plus =>
    match st with
    | a :: rest =>
      let s := states.length
      let states := states ++ [⟨[⟨.Eps, some a.start⟩, ⟨.Eps, none⟩]⟩]
      let states := patch states a.outs s
      -- start stays at `a` (at least one iteration)
      .ok (states, Frag.mk a.start [(s, 1)] :: rest)
    | _ => .error ⟨.UnexpectedToken (op_char t), i⟩
  | .Qmark =>
    match st with
    | a :: rest =>
      let s := states.length
      let states := states ++ [⟨[⟨.Eps, some a.start⟩, ⟨.Eps, none⟩]⟩]
      .ok (states, Frag.mk s (a.outs ++ [(s, 1)]) :: rest)
    | _ => .error ⟨.UnexpectedToken (op_char t), i⟩
  | .LParen | .RParen =>
    .error ⟨.UnbalancedParen, i⟩

/-- Finalize the builder states (`nfa.rs::build_nfa`, the loop removing the
`Option`): the Rust code panics on an unpatched edge; the builder invariant
proved below shows no edge is unpatched when the build succeeds, so the
default target 0 taken here is never used. -/
def finalize (states : List StateB) : List State :=
  states.map (fun sb => ⟨sb.edges.map (fun e => (e.label, e.tgt.getD 0))⟩)

/-- `nfa.rs::build_nfa`: a pre-allocated global start state 0, the Thompson
composition fold, then the accept state, final patching and finalization. -/
def build_nfa (post : List Token) : Except RError Nfa := do
  let init : List StateB := [⟨[]⟩]
  let (states, st) ← post.enum.foldlM (fun acc it => nfaStep acc it.1 it.2)
      (init, ([] : List Frag))
  match st with
  | [top] =>
    let accept := states.length
    let states := states ++ [⟨[]⟩]
    let states := patch states top.outs accept
    let states :=
      if top.start ≠ 0 then addEdge states 0 .Eps (some top.start) else states
    .ok ⟨finalize states, 0, accept⟩
  | [] => .error ⟨.UnexpectedToken '$', post.length⟩
  | _ => .error ⟨.UnexpectedToken '$', post.length⟩

/-- Per-group capture slot `(start, end)`, mirroring `lib.rs::GroupSlot`. -/
abbrev GroupSlot := Option Nat × Option Nat

/-- A matcher thread, mirroring `lib.rs::Thread`: current state plus capture
slots (index = group number, slot 0 unused). -/
structure Thread where
  s : Nat
  caps : List GroupSlot
deriving DecidableEq, Repr

/-- The compiled pattern, mirroring `lib.rs::Regex`. -/
structure Regex where
  states : List State
  start : Nat
  accept : Nat
  groups : Nat
deriving DecidableEq, Repr

/-- Phase 2/3 loop of `lib.rs::better_choice`: walk groups `1..len`
projecting a slot side with `f`; at the first group where both sides are
set and differ, report whether the left side is greater. -/
def firstSetDiffGT (f : GroupSlot → Option Nat) :
    List GroupSlot → List GroupSlot → Option Bool
  | x :: xs, y :: ys =>
    match f x, f y with
    | some va, some vb =>
      if va ≠ vb then some (decide (va > vb)) else firstSetDiffGT f xs ys
    | _, _ => firstSetDiffGT f xs ys
  | _, _ => none

/-- `lib.rs::better_choice`: is candidate `a` strictly better than `b`?
Compares the end position, then (groups in ascending order) the group
starts, then the group ends; ties keep the incumbent. -/
def better_choice (a b : Nat × List GroupSlot) : Bool :=
  if a.1 ≠ b.1 then
    decide (a.1 > b.1)
  else
    -- `for g in 1..len` over both cap vectors = zip of their tails
    match firstSetDiffGT (fun sl => sl.1) (a.2.drop 1) (b.2.drop 1) with
    | some r => r
    | none =>
      match firstSetDiffGT (fun sl => sl.2) (a.2.drop 1) (b.2.drop 1) with
      | some r => r
      | none => false

/-- Comparison of optional positions, mirroring Rust `Option<usize>: Ord`
(`None < Some _`). -/
def cmpOpt (a b : Option Nat) : Ordering :=
  match a, b with
  | none, none => .eq
  | none, some _ => .lt
  | some _, none => .gt
  | some x, some y => compare x y

/-- Lexicographic comparison of capture slots (Rust tuple `Ord`). -/
def cmpSlot (a b : GroupSlot) : Ordering :=
  (cmpOpt a.1 b.1).then (cmpOpt a.2 b.2)

/-- Lexicographic comparison of capture vectors (Rust `Vec: Ord`). -/
def cmpCaps : List GroupSlot → List GroupSlot → Ordering
  | [], [] => .eq
  | [], _ :: _ => .lt
  | _ :: _, [] => .gt
  | a :: as1, b :: bs => (cmpSlot a b).then (cmpCaps as1 bs)

/-- The comparator of `lib.rs::dedup_threads`: by state id, then by capture
vector. -/
def cmpThread (a b : Thread) : Ordering :=
  (compare a.s b.s).then (cmpCaps a.caps b.caps)

/-- Insert a thread into a list sorted by `cmpThread`. -/
def insertThread (t : Thread) : List Thread → List Thread
  | [] => [t]
  | u :: rest =>
    if cmpThread t u = .gt then u :: insertThread t rest
    else t :: u :: rest

/-- Sort threads by `cmpThread` (`lib.rs::dedup_threads`, the `sort_by`). -/
def sortThreads : List Thread → List Thread
  | [] => []
  | t :: rest => insertThread t (sortThreads rest)

/-- Tail of adjacent-duplicate removal: `a` is the last kept thread;
threads equal to it (on `(state, caps)`) are dropped. -/
def dedupSkip (a : Thread) : List Thread → List Thread
  | [] => []
  | b :: rest =>
    if a.s = b.s ∧ a.caps = b.caps then dedupSkip a rest
    else b :: dedupSkip b rest

/-- Drop adjacent duplicates, keeping the first of each run
(`Vec::dedup_by` on `(state, caps)` equality). -/
def dedupAdjacent : List Thread → List Thread
  | [] => []
  | a :: rest => a :: dedupSkip a rest

/-- `lib.rs::dedup_threads`: sort by `(state, caps)`, then drop adjacent
duplicates. -/
def dedup_threads (v : List Thread) : List Thread :=
  dedupAdjacent (sortThreads v)

/-- `caps[g].0 = Some(pos)` under the source's `g < caps.len()` guard. -/
def setCapStart (caps : List GroupSlot) (g pos : Nat) : List GroupSlot :=
  match caps[g]? with
  | some sl => caps.set g (some pos, sl.2)
  | none => caps

/-- `caps[g].1 = Some(pos)` under the source's `g < caps.len()` guard. -/
def setCapEnd (caps : List GroupSlot) (g pos : Nat) : List GroupSlot :=
  match caps[g]? with
  | some sl => caps.set g (sl.1, some pos)
  | none => caps

/-- Edges of state `s` (the Rust code indexes unchecked; a compiled regex
never holds an out-of-range state id, so the empty default is never used). -/
def edgesOf (states : List State) (s : Nat) : List (Label × Nat) :=
  match states[s]? with
  | some st => st.edges
  | none => []

/-- Successor threads one worklist step of `lib.rs::eps_closure` enqueues
for thread `thr` at input position `pos`: follow `Eps`, `CapBegin`,
`CapEnd` edges (in edge order); consuming labels are skipped. -/
def epsSuccessors (states : List State) (thr : Thread) (pos : Nat) :
    List Thread :=
  (edgesOf states thr.s).filterMap (fun e =>
    match e.1 with
    | .Eps => some ⟨e.2, thr.caps⟩
    | .CapBegin g => some ⟨e.2, setCapStart thr.caps g pos⟩
    | .CapEnd g => some ⟨e.2, setCapEnd thr.caps g pos⟩
    | _ => none)

/-- The worklist loop of `lib.rs::eps_closure`: pop from the queue front,
skip threads already present in the output `set` (`(state, caps)`
equality), otherwise emit and enqueue the successors at the back.  The Rust
loop always terminates (the visited set lives in a finite universe); the
explicit `fuel` bounds the number of pops, and every concrete evaluation
below uses ample fuel. -/
def epsClosureAux (states : List State) (pos : Nat) :
    Nat → List Thread → List Thread → List Thread
  | 0, _, set => set
  | _ + 1, [], set => set
  | fuel + 1, thr :: q, set =>
    if set.any (fun t => t.s = thr.s ∧ t.caps = thr.caps) then
      epsClosureAux states pos fuel q set
    else
      epsClosureAux states pos fuel (q ++ epsSuccessors states thr pos)
        (set ++ [thr])

/-- `lib.rs::eps_closure`: close the thread set under ε/capture edges at
input position `pos`, then dedup by `(state, caps)`. -/
def eps_closure (states : List State) (fuel : Nat) (set : List Thread)
    (pos : Nat) : List Thread :=
  dedup_threads (epsClosureAux states pos fuel set [])

/-- The byte-consuming scan of `lib.rs::Regex::run` step 3: each thread's
`Byte`/`Any`/`Class` edges matching byte `b` spawn threads in `next`. -/
def stepOnByte (states : List State) (curr : List Thread) (b : Nat) :
    List Thread :=
  curr.flatMap (fun thr =>
    (edgesOf states thr.s).filterMap (fun e =>
      match e.1 with
      | .Byte c => if c = b then some ⟨e.2, thr.caps⟩ else none
      | .Any => some ⟨e.2, thr.caps⟩
      | .Class ranges neg =>
        let hit := ranges.any (fun r => r.1 ≤ b ∧ b ≤ r.2)
        if (neg ∧ ¬ hit) ∨ (¬ neg ∧ hit) then some ⟨e.2, thr.caps⟩ else none
      | _ => none))

/-- The accept scan of `lib.rs::Regex::run` step 1: every thread at the
accept state yields candidate `(i, caps)`; it replaces the running best
only when `better_choice` says strictly better. -/
def scanAccept (accept i : Nat) (curr : List Thread)
    (last : Option (Nat × List GroupSlot)) : Option (Nat × List GroupSlot) :=
  curr.foldl (fun best t =>
    if t.s = accept then
      match best with
      | none => some (i, t.caps)
      | some b => if better_choice (i, t.caps) b then some (i, t.caps)
                  else some b
    else best) last

/-- The `while i <= n` loop of `lib.rs::Regex::run`, recursing on the
remaining input bytes (`i` is the current absolute position).  The `perm`
parameter reorders the current thread set at the top of each iteration —
before the accept-candidate scan and the byte step; the source code is
exactly `perm = id`.  It exists to state the spec's thread-order-invariance
claim. -/
def runLoop (re : Regex) (fuel : Nat) (perm : List Thread → List Thread) :
    List Nat → Nat → List Thread → Option (Nat × List GroupSlot) →
    Option (Nat × List GroupSlot)
  | rest, i, curr, last =>
    let cur := perm curr
    let last := scanAccept re.accept i cur last
    match rest with
    | [] => last
    | b :: rest2 =>
      let next := stepOnByte re.states cur b
      if next.isEmpty then last
      else
        runLoop re fuel perm rest2 (i + 1)
          (dedup_threads (eps_closure re.states fuel next (i + 1))) last

/-- `lib.rs::Regex::run` generalized by the thread-order permutation
(`perm = id` is the source). -/
def Regex.runP (perm : List Thread → List Thread) (re : Regex) (fuel : Nat)
    (bytes : List Nat) : Option (Nat × List GroupSlot) :=
  let init : Thread := ⟨re.start, List.replicate (re.groups + 1) (none, none)⟩
  let curr := eps_closure re.states fuel [init] 0
  runLoop re fuel perm bytes 0 curr none

/-- `lib.rs::Regex::run`. -/
def Regex.run (re : Regex) (fuel : Nat) (bytes : List Nat) :
    Option (Nat × List GroupSlot) :=
  Regex.runP id re fuel bytes

/-- Rust `str::is_char_boundary` on a UTF-8 byte list: position 0, the end,
or any byte that is not a continuation byte `0x80..=0xBF`. -/
def isCharBoundary (hay : List Nat) (i : Nat) : Bool :=
  if i = 0 then true
  else
    match hay[i]? with
    | none => i = hay.length
    | some b => decide (b < 0x80) || decide (0xC0 ≤ b)

/-- Byte sub-slice `hay[s..e]`. -/
def sliceBytes (hay : List Nat) (s e : Nat) : List Nat :=
  (hay.drop s).take (e - s)

/-- `lib.rs::Regex::captures` generalized by the thread-order permutation.
Returns `Except.error ()` exactly when the Rust code would panic: the slice
`&hay[s..e]` is taken only after the source's `s <= e && e <= hay.len()`
check, but panics when `s` or `e` is not a character boundary of the
(UTF-8) haystack. -/
def Regex.capturesP (perm : List Thread → List Thread) (re : Regex)
    (fuel : Nat) (hay : List Nat) :
    Except Unit (Option (List (Option (List Nat)))) := do
  match Regex.runP perm re fuel hay with
  | none => .ok none
  | some (e, caps) =>
    if e ≠ hay.length then
      .ok none
    else do
      let tail ← (List.range re.groups).mapM (fun k => do
        let g := k + 1
        match caps[g]? with
        | some (some s, some e2) =>
          if s ≤ e2 ∧ e2 ≤ hay.length then
            if isCharBoundary hay s ∧ isCharBoundary hay e2 then
              pure (some (sliceBytes hay s e2))
            else
              .error ()  -- Rust: byte-slice of &str off a char boundary panics
          else
            pure none
        | _ => pure none)
      .ok (some (some hay :: tail))

/-- `lib.rs::Regex::captures`. -/
def Regex.captures (re : Regex) (fuel : Nat) (hay : List Nat) :
    Except Unit (Option (List (Option (List Nat)))) :=
  Regex.capturesP id re fuel hay

/-- `lib.rs::Regex::is_match`: whether `captures` finds a whole-input
match (propagating the panic, which `captures(hay).is_some()` would hit). -/
def Regex.is_match (re : Regex) (fuel : Nat) (hay : List Nat) :
    Except Unit Bool :=
  (Regex.captures re fuel hay).map (fun o => o.isSome)

/-- `lib.rs::Regex::new`: the full pipeline, then the maximum group id
appearing on any capture edge. -/
def Regex.new (pat : List Nat) : Except RError Regex := do
  let tokens ← tokenize pat
  let tokens := insert_concat tokens
  let post ← toPostfix tokens
  let nfa ← build_nfa post
  let gmax := nfa.states.foldl (fun acc st =>
    st.edges.foldl (fun acc e =>
      match e.1 with
      | .CapBegin g => max acc g
      | .CapEnd g => max acc g
      | _ => acc) acc) 0
  .ok ⟨nfa.states, nfa.start, nfa.accept, gmax⟩


/-- The edge at coordinates `(state_id, edge_index)` of the builder state
vector; the proof-side view of holes and targets. -/
def edgeAt (states : List StateB) (h : Nat × Nat) : Option EdgeB :=
  states[h.1]?.bind (fun sb => sb.edges[h.2]?)

/-- All hole coordinates owned by the fragment stack. -/
def allHoles (frags : List Frag) : List (Nat × Nat) :=
  frags.flatMap (fun f => f.outs)

/-- The Thompson-builder invariant: at least the global start state exists;
every resolved edge target is a valid state index; every fragment start is
valid; every hole on the stack points at an existing unpatched edge; every
unpatched edge is owned by the stack; and no hole is owned twice. -/
def BuildInv (states : List StateB) (frags : List Frag) : Prop :=
  1 ≤ states.length ∧
  (∀ h e, edgeAt states h = some e → ∀ tg, e.tgt = some tg → tg < states.length) ∧
  (∀ f ∈ frags, f.start < states.length) ∧
  (∀ f ∈ frags, ∀ h ∈ f.outs, ∃ e, edgeAt states h = some e ∧ e.tgt = none) ∧
  (∀ h e, edgeAt states h = some e → e.tgt = none → h ∈ allHoles frags) ∧
  (allHoles frags).Nodup

/-- The compiled regex for the pattern `a`. -/
def regexSingleA : Regex :=
  ⟨[⟨[(.Eps, 1)]⟩, ⟨[(.Byte 97, 2)]⟩, ⟨[]⟩], 0, 2, 0⟩

/-! ### Concrete compiled regexes used by the claims

Each literal below is the exact output of `Regex.new` on the named pattern;
the corresponding theorem proves the equality. -/

/-- The compiled regex for the pattern `(a)|a`. -/
def regexAltCap : Regex :=
  ⟨[⟨[(.Eps, 5)]⟩,
    ⟨[(.CapBegin 1, 2)]⟩,
    ⟨[(.Byte 97, 3)]⟩,
    ⟨[(.CapEnd 1, 6)]⟩,
    ⟨[(.Byte 97, 6)]⟩,
    ⟨[(.Eps, 1), (.Eps, 4)]⟩,
    ⟨[]⟩], 0, 6, 1⟩

/-- The compiled regex for the pattern `.(.)`. -/
def regexDotCapDot : Regex :=
  ⟨[⟨[(.Eps, 1)]⟩,
    ⟨[(.Any, 2)]⟩,
    ⟨[(.CapBegin 1, 3)]⟩,
    ⟨[(.Any, 4)]⟩,
    ⟨[(.CapEnd 1, 5)]⟩,
    ⟨[]⟩], 0, 5, 1⟩

/-- The compiled regex for the pattern `(\w+)\s+(.+)`. -/
def regexWordSpaceRest : Regex :=
  ⟨[⟨[(.Eps, 1)]⟩,
    ⟨[(.CapBegin 1, 2)]⟩,
    ⟨[(.Class [(48, 57), (65, 90), (97, 122), (95, 95)] false, 3)]⟩,
    ⟨[(.Eps, 2), (.Eps, 4)]⟩,
    ⟨[(.CapEnd 1, 5)]⟩,
    ⟨[(.Class [(32, 32), (9, 9), (10, 10), (13, 13), (11, 11), (12, 12)] false, 6)]⟩,
    ⟨[(.Eps, 5), (.Eps, 7)]⟩,
    ⟨[(.CapBegin 2, 8)]⟩,
    ⟨[(.Any, 9)]⟩,
    ⟨[(.Eps, 8), (.Eps, 10)]⟩,
    ⟨[(.CapEnd 2, 11)]⟩,
    ⟨[]⟩], 0, 11, 2⟩

/-- The compiled regex for the pattern `(ab)+`. -/
def regexPlusGroup : Regex :=
  ⟨[⟨[(.Eps, 1)]⟩,
    ⟨[(.CapBegin 1, 2)]⟩,
    ⟨[(.Byte 97, 3)]⟩,
    ⟨[(.Byte 98, 4)]⟩,
    ⟨[(.CapEnd 1, 5)]⟩,
    ⟨[(.Eps, 1), (.Eps, 6)]⟩,
    ⟨[]⟩], 0, 6, 1⟩

/-- The compiled regex for the pattern `[z-a]`. -/
def regexRevRange : Regex :=
  ⟨[⟨[(.Eps, 1)]⟩,
    ⟨[(.Class [(122, 97)] false, 2)]⟩,
    ⟨[]⟩], 0, 2, 0⟩

/-- Claim C4: for the pattern `(\w+)\s+(.+)` (bytes `(\w+)\s+(.+)`) and the
input `abc   123-XYZ` (three spaces), `captures` returns a match with
group 1 = `abc` and group 2 = `123-XYZ` (the latest-starting group 2). -/
theorem c4_captures_word_space_rest :
    Regex.new [40, 92, 119, 43, 41, 92, 115, 43, 40, 46, 43, 41] =
      .ok regexWordSpaceRest ∧
    Regex.captures regexWordSpaceRest 500
        [97, 98, 99, 32, 32, 32, 49, 50, 51, 45, 88, 89, 90] =
      .ok (some [some [97, 98, 99, 32, 32, 32, 49, 50, 51, 45, 88, 89, 90],
        some [97, 98, 99],
        some [49, 50, 51, 45, 88, 89, 90]]) :=
  ⟨rfl, rfl⟩

/-- Claim C5: for the pattern `(ab)+` and the input `abab`, `captures`
returns group 1 = `ab`, the bytes of offsets 2..4 consumed by the final
iteration. -/
theorem c5_captures_last_iteration :
    Regex.new [40, 97, 98, 41, 43] = .ok regexPlusGroup ∧
    Regex.captures regexPlusGroup 500 [97, 98, 97, 98] =
      .ok (some [some [97, 98, 97, 98], some [97, 98]]) ∧
    Regex.runP id regexPlusGroup 500 [97, 98, 97, 98] =
      some (4, [(none, none), (some 2, some 4)]) :=
  ⟨rfl, rfl, rfl⟩

/-- Claim C3 (failing input): on the pattern `.(.)` and the two-byte UTF-8
input `α` (`0xCE 0xB1`), the chosen thread records group 1 = bytes 1..2;
position 1 is not a character boundary, so the Rust code panics in
`captures` (modelled by `Except.error ()`), contradicting the spec's
"matching never errors". -/
theorem c3_slice_panic :
    Regex.new [46, 40, 46, 41] = .ok regexDotCapDot ∧
    Regex.runP id regexDotCapDot 500 [206, 177] =
      some (2, [(none, none), (some 1, some 2)]) ∧
    Regex.captures regexDotCapDot 500 [206, 177] = .error () ∧
    Regex.is_match regexDotCapDot 500 [206, 177] = .error () :=
  ⟨rfl, rfl, rfl, rfl⟩

/-- Claim C7: the four malformed patterns produce the specified error
kinds: `a**` → DanglingQuantifier, `(ab` → UnbalancedParen, a lone
backslash → UnexpectedEof, `[abc` → UnbalancedClass. -/
theorem c7_error_kinds :
    Regex.new [97, 42, 42] = .error ⟨.DanglingQuantifier, 2⟩ ∧
    Regex.new [40, 97, 98] = .error ⟨.UnbalancedParen, 0⟩ ∧
    Regex.new [92] = .error ⟨.UnexpectedEof, 1⟩ ∧
    Regex.new [91, 97, 98, 99] = .error ⟨.UnbalancedClass, 4⟩ :=
  ⟨rfl, rfl, rfl, rfl⟩

/-- Claim C10: an alternation with an empty branch (`a|` or `|a`) is
rejected with `UnexpectedToken`, raised at the NFA-build stage when `Alt`
pops the fragment stack and finds fewer than two fragments. -/
theorem c10_empty_alternation_branch :
    Regex.new [97, 124] = .error ⟨.UnexpectedToken '|', 1⟩ ∧
    Regex.new [124, 97] = .error ⟨.UnexpectedToken '|', 1⟩ :=
  ⟨rfl, rfl⟩

/-- Claim C2 (counterexample): the pattern `(*` is rejected, but with
`UnbalancedParen` — not `DanglingQuantifier` as claimed — because `LParen`
sets `last_was_operand` to true, so the quantifier is accepted and the
unmatched `(` is what errors. -/
theorem c2_counterexample_lparen_star :
    Regex.new [40, 42] = .error ⟨.UnbalancedParen, 0⟩ ∧
    ErrorKind.UnbalancedParen ≠ ErrorKind.DanglingQuantifier :=
  ⟨rfl, by decide⟩

/-- Claim C2 (amended): a postfix quantifier arriving when
`last_was_operand` is false is rejected with `DanglingQuantifier` (so `*a`
and `|*` are), but `(` sets `last_was_operand` to true, so `(*` is instead
rejected with `UnbalancedParen` for its unmatched parenthesis. -/
theorem c2_dangling_quantifier :
    (∀ (st : PfSt) (i : Nat) (q : Token),
      (q = .Star ∨ q = .Plus ∨ q = .Qmark) →
      st.last_was_operand = false →
      postfixStep st i q = .error ⟨.DanglingQuantifier, i⟩) ∧
    Regex.new [42, 97] = .error ⟨.DanglingQuantifier, 0⟩ ∧
    Regex.new [124, 42] = .error ⟨.DanglingQuantifier, 1⟩ ∧
    Regex.new [40, 42] = .error ⟨.UnbalancedParen, 0⟩ := by
  refine ⟨?_, rfl, rfl, rfl⟩
  intro st i q hq hop
  rcases hq with h | h | h <;> subst h <;> simp [postfixStep, hop]

/-- Witness for the amended claim C2 at a concrete parser state. -/
theorem c2_dangling_quantifier_witness :
    postfixStep ⟨[], [], false, false, 1⟩ 0 .Star =
      .error ⟨.DanglingQuantifier, 0⟩ :=
  c2_dangling_quantifier.1 ⟨[], [], false, false, 1⟩ 0 .Star (Or.inl rfl) rfl

/-- Claim C1 (counterexample): for the compiled pattern `(a)|a` on input
`a`, reversing the thread order before the accept-candidate scan changes
the returned capture tuple (group 1 becomes `a` instead of absent): the
two accepting threads' capture tuples are incomparable under
`better_choice` (set slot vs unset slot), so the incumbent — which depends
on enumeration order — wins. -/
theorem c1_counterexample_thread_order :
    Regex.new [40, 97, 41, 124, 97] = .ok regexAltCap ∧
    Regex.capturesP List.reverse regexAltCap 500 [97] =
      .ok (some [some [97], some [97]]) ∧
    Regex.capturesP id regexAltCap 500 [97] =
      .ok (some [some [97], none]) ∧
    Regex.capturesP List.reverse regexAltCap 500 [97] ≠
      Regex.capturesP id regexAltCap 500 [97] := by
  refine ⟨rfl, rfl, rfl, ?_⟩
  have h1 : Regex.capturesP List.reverse regexAltCap 500 [97] =
      .ok (some [some [97], some [97]]) := rfl
  have h2 : Regex.capturesP id regexAltCap 500 [97] =
      .ok (some [some [97], none]) := rfl
  rw [h1, h2]
  simp

/-- A worklist with an empty queue returns its set unchanged, for every
fuel. -/
theorem epsClosureAux_nil_queue (states : List State) (pos : Nat)
    (fuel : Nat) (set : List Thread) :
    epsClosureAux states pos fuel [] set = set := by
  cases fuel <;> rfl

/-- Claim C6: `[z-a]` compiles (reversed ranges are not validated), and the
resulting regex matches nothing: for every fuel and every input byte
string, `is_match` returns false — the class edge `(z, a)` accepts no byte
since `122 ≤ b ∧ b ≤ 97` is unsatisfiable. -/
theorem c6_reversed_range_matches_nothing :
    Regex.new [91, 122, 45, 97, 93] = .ok regexRevRange ∧
    ∀ (fuel : Nat) (bytes : List Nat),
      Regex.is_match regexRevRange fuel bytes = .ok false := by
  refine ⟨rfl, ?_⟩
  intro fuel bytes
  have hclo : eps_closure regexRevRange.states fuel [⟨0, [(none, none)]⟩] 0 = [] ∨
      eps_closure regexRevRange.states fuel [⟨0, [(none, none)]⟩] 0 =
        [⟨0, [(none, none)]⟩] ∨
      eps_closure regexRevRange.states fuel [⟨0, [(none, none)]⟩] 0 =
        [⟨0, [(none, none)]⟩, ⟨1, [(none, none)]⟩] := by
    match fuel with
    | 0 => exact Or.inl rfl
    | 1 => exact Or.inr (Or.inl rfl)
    | (n+2) =>
      refine Or.inr (Or.inr ?_)
      show dedup_threads (epsClosureAux _ 0 (n+2) [⟨0, [(none, none)]⟩] []) = _
      have h1 : epsClosureAux regexRevRange.states 0 (n+2) [⟨0, [(none, none)]⟩] [] =
          epsClosureAux regexRevRange.states 0 n []
            [⟨0, [(none, none)]⟩, ⟨1, [(none, none)]⟩] := by
        simp [epsClosureAux, epsSuccessors, edgesOf, regexRevRange]
      rw [h1, epsClosureAux_nil_queue]
      rfl
  have hrun : Regex.runP id regexRevRange fuel bytes = none := by
    show runLoop regexRevRange fuel id bytes 0
        (eps_closure regexRevRange.states fuel [⟨0, [(none, none)]⟩] 0) none = none
    rcases hclo with h | h | h
    · rw [h]
      cases bytes with
      | nil => rfl
      | cons b rest => rfl
    · rw [h]
      cases bytes with
      | nil => rfl
      | cons b rest => rfl
    · rw [h]
      cases bytes with
      | nil => rfl
      | cons b rest =>
        have hnext : stepOnByte regexRevRange.states
            [⟨0, [(none, none)]⟩, ⟨1, [(none, none)]⟩] b = [] := by
          have hno : ¬ (122 ≤ b ∧ b ≤ 97) := by omega
          simp [stepOnByte, edgesOf, regexRevRange, hno]
        simp only [runLoop, id_eq, hnext]
        rfl
  simp only [Regex.is_match, Regex.captures, Regex.capturesP, hrun]
  rfl

/-- The always-chosen candidate of `better_choice` keeps the larger end
position: `better_choice` replaces the incumbent `b` by `a` only when
`a.1 > b.1`, and any deeper tie-breaking leaves the end equal. -/
theorem choose_fst (a b : Nat × List GroupSlot) :
    (if better_choice a b then a else b).1 = max b.1 a.1 := by
  by_cases hne : a.1 = b.1
  · split <;> omega
  · have hbc : better_choice a b = decide (a.1 > b.1) := by
      unfold better_choice
      rw [if_pos hne]
    rw [hbc]
    by_cases hgt : a.1 > b.1
    · simp [hgt]
      omega
    · simp [hgt]
      omega

/-- Unfolding one accept-scan step. -/
theorem scanAccept_cons (accept i : Nat) (t : Thread) (rest : List Thread)
    (last : Option (Nat × List GroupSlot)) :
    scanAccept accept i (t :: rest) last =
      scanAccept accept i rest
        (if t.s = accept then
          (match last with
           | none => some (i, t.caps)
           | some b => if better_choice (i, t.caps) b then some (i, t.caps)
                       else some b)
         else last) := by
  by_cases ht : t.s = accept <;> simp [scanAccept, ht]

/-- The end position of the accept scan's chosen candidate depends on the
thread set only through membership of an accepting thread: it is the
incumbent end, raised to `i` when some thread sits on the accept state. -/
theorem scanAccept_fst (accept i : Nat) (curr : List Thread)
    (last : Option (Nat × List GroupSlot)) :
    (scanAccept accept i curr last).map Prod.fst =
      if curr.any (fun t => decide (t.s = accept)) then
        some ((last.map Prod.fst).elim i (fun e => max e i))
      else last.map Prod.fst := by
  induction curr generalizing last with
  | nil => simp [scanAccept]
  | cons t rest ih =>
    rw [scanAccept_cons]
    by_cases ht : t.s = accept
    · rw [if_pos ht, ih]
      cases last with
      | none =>
        by_cases hrest : rest.any (fun t => decide (t.s = accept)) <;>
          simp [hrest, List.any_cons, ht]
      | some b =>
        have hfst : ((if better_choice (i, t.caps) b then some (i, t.caps)
            else some b).map Prod.fst) = some (max b.1 i) := by
          by_cases hb : better_choice (i, t.caps) b
          · have h2 := choose_fst (i, t.caps) b
            rw [if_pos hb] at h2
            simp only [hb, if_true, Option.map_some]
            exact congrArg some h2
          · have h2 := choose_fst (i, t.caps) b
            rw [if_neg hb] at h2
            simp only [hb, Bool.false_eq_true, if_false, Option.map_some]
            exact congrArg some h2
        rw [hfst]
        by_cases hrest : rest.any (fun t => decide (t.s = accept)) <;>
          simp [hrest, List.any_cons, ht] <;> omega
    · rw [if_neg ht, ih]
      simp [List.any_cons, ht]

/-- `List.any` is invariant under permutation. -/
theorem perm_any (l1 l2 : List Thread) (p : Thread → Bool) (hp : l1.Perm l2) :
    l1.any p = l2.any p := by
  induction hp with
  | nil => rfl
  | cons x h ih => simp [List.any_cons, ih]
  | swap x y l => cases hx : p x <;> cases hy : p y <;> simp [List.any_cons, hx, hy]
  | trans h1 h2 ih1 ih2 => rw [ih1, ih2]

/-- Claim C1 (amended): permuting the thread set before the
accept-candidate scan preserves whether a candidate is chosen and the end
position of the chosen candidate (hence the match outcome), though not the
capture tuple: the scan's result end is a function of accept-state
membership only, which is permutation-invariant. -/
theorem c1_scan_order_end_invariant :
    ∀ (accept i : Nat) (curr curr2 : List Thread)
      (last : Option (Nat × List GroupSlot)),
      curr.Perm curr2 →
      (scanAccept accept i curr last).map Prod.fst =
        (scanAccept accept i curr2 last).map Prod.fst := by
  intro accept i curr curr2 last hp
  rw [scanAccept_fst, scanAccept_fst, perm_any curr curr2 _ hp]

/-- Witness for the amended claim C1: the two accepting threads of
`(a)|a` on `a`, scanned in both orders. -/
theorem c1_scan_order_end_invariant_witness :
    (scanAccept 6 1 [⟨6, [(none, none), (none, none)]⟩,
        ⟨6, [(none, none), (some 0, some 1)]⟩] none).map Prod.fst =
      (scanAccept 6 1 [⟨6, [(none, none), (some 0, some 1)]⟩,
        ⟨6, [(none, none), (none, none)]⟩] none).map Prod.fst :=
  c1_scan_order_end_invariant 6 1 _ _ none
    (List.Perm.swap (⟨6, [(none, none), (some 0, some 1)]⟩ : Thread)
      (⟨6, [(none, none), (none, none)]⟩ : Thread) [])


theorem edgeAt_state_lt (states : List StateB) (h : Nat × Nat) (e : EdgeB)
    (he : edgeAt states h = some e) : h.1 < states.length := by
  unfold edgeAt at he
  cases hs : states[h.1]? with
  | none => rw [hs] at he; cases he
  | some sb => exact (List.getElem?_eq_some.mp hs).1

theorem edgeAt_append (states : List StateB) (sb : StateB) (h : Nat × Nat)
    (hlt : h.1 < states.length) :
    edgeAt (states ++ [sb]) h = edgeAt states h := by
  unfold edgeAt
  rw [List.getElem?_append_left hlt]

theorem edgeAt_append_new (states : List StateB) (sb : StateB) (j : Nat) :
    edgeAt (states ++ [sb]) (states.length, j) = sb.edges[j]? := by
  unfold edgeAt
  rw [List.getElem?_concat_length]
  rfl

theorem patchOne_length (s : List StateB) (h : Nat × Nat) (tg : Nat) :
    (patchOne s h tg).length = s.length := by
  unfold patchOne
  cases hs : s[h.1]? with
  | none => rfl
  | some sb =>
    cases he : sb.edges[h.2]? with
    | none => simp [he]
    | some e => simp [he]

theorem patch_length (holes : List (Nat × Nat)) (s : List StateB) (tg : Nat) :
    (patch s holes tg).length = s.length := by
  induction holes generalizing s with
  | nil => rfl
  | cons h rest ih => rw [patch, ih, patchOne_length]

theorem patchOne_get_ne (s : List StateB) (h : Nat × Nat) (tg : Nat)
    (j : Nat) (hne : j ≠ h.1) : (patchOne s h tg)[j]? = s[j]? := by
  unfold patchOne
  cases hs : s[h.1]? with
  | none => rfl
  | some sb =>
    cases he : sb.edges[h.2]? with
    | none => simp [he]
    | some e =>
      simp only [he]
      rw [List.getElem?_set_ne (fun hh => hne hh.symm)]

theorem patchOne_edgeAt_ne (s : List StateB) (h : Nat × Nat) (tg : Nat)
    (h2 : Nat × Nat) (hne : h2 ≠ h) :
    edgeAt (patchOne s h tg) h2 = edgeAt s h2 := by
  by_cases hst : h2.1 = h.1
  · have hei : h2.2 ≠ h.2 := by
      intro he
      exact hne (Prod.ext hst he)
    unfold edgeAt patchOne
    cases hs : s[h.1]? with
    | none => rfl
    | some sb =>
      cases he : sb.edges[h.2]? with
      | none => simp [he]
      | some e =>
        simp only [he]
        have hlt : h.1 < s.length := (List.getElem?_eq_some.mp hs).1
        rw [hst, List.getElem?_set_eq (by simpa using hlt), hs]
        simp [List.getElem?_set_ne (fun hh => hei hh.symm)]
  · unfold edgeAt
    rw [patchOne_get_ne s h tg h2.1 hst]

theorem patchOne_edgeAt_self (s : List StateB) (h : Nat × Nat) (tg : Nat) :
    edgeAt (patchOne s h tg) h = (edgeAt s h).map (fun e => ⟨e.label, some tg⟩) := by
  unfold edgeAt patchOne
  cases hs : s[h.1]? with
  | none => simp [hs]
  | some sb =>
    cases he : sb.edges[h.2]? with
    | none =>
      simp only [he]
      rw [hs]
      simp [he]
    | some e =>
      simp only [he]
      have hlt : h.1 < s.length := (List.getElem?_eq_some.mp hs).1
      have he2 : h.2 < sb.edges.length := (List.getElem?_eq_some.mp he).1
      rw [List.getElem?_set_eq hlt]
      simp [List.getElem?_set_eq he2, he]

theorem patch_edgeAt_not_mem (holes : List (Nat × Nat)) (s : List StateB)
    (tg : Nat) (h : Nat × Nat) (hnm : h ∉ holes) :
    edgeAt (patch s holes tg) h = edgeAt s h := by
  induction holes generalizing s with
  | nil => rfl
  | cons h0 rest ih =>
    rw [patch, ih _ (fun hmem => hnm (List.mem_cons_of_mem _ hmem)),
      patchOne_edgeAt_ne _ _ _ _
        (fun he => hnm (by rw [he]; exact List.mem_cons_self _ _))]

theorem patch_edgeAt_mem (holes : List (Nat × Nat)) (s : List StateB)
    (tg : Nat) (h : Nat × Nat) (hm : h ∈ holes) :
    edgeAt (patch s holes tg) h =
      (edgeAt s h).map (fun e => ⟨e.label, some tg⟩) := by
  induction holes generalizing s with
  | nil => cases hm
  | cons h0 rest ih =>
    rw [patch]
    by_cases hmem : h ∈ rest
    · rw [ih _ hmem]
      by_cases he : h = h0
      · subst he
        rw [patchOne_edgeAt_self]
        cases edgeAt s h <;> rfl
      · rw [patchOne_edgeAt_ne _ _ _ _ he]
    · have he : h = h0 := by
        rcases List.mem_cons.mp hm with h1 | h1
        · exact h1
        · exact absurd h1 hmem
      subst he
      rw [patch_edgeAt_not_mem rest _ tg h hmem, patchOne_edgeAt_self]

theorem patch_get_ne (holes : List (Nat × Nat)) (s : List StateB) (tg : Nat)
    (j : Nat) (hj : ∀ h ∈ holes, j ≠ h.1) :
    (patch s holes tg)[j]? = s[j]? := by
  induction holes generalizing s with
  | nil => rfl
  | cons h0 rest ih =>
    rw [patch, ih _ (fun h hm => hj h (List.mem_cons_of_mem _ hm)),
      patchOne_get_ne _ _ _ _ (hj h0 (List.mem_cons_self _ _))]

theorem addEdge_length (s : List StateB) (sid : Nat) (lbl : Label)
    (tg : Option Nat) : (addEdge s sid lbl tg).length = s.length := by
  unfold addEdge
  cases hs : s[sid]? with
  | none => rfl
  | some sb => simp

theorem addEdge_get_ne (s : List StateB) (sid : Nat) (lbl : Label)
    (tg : Option Nat) (j : Nat) (hne : j ≠ sid) :
    (addEdge s sid lbl tg)[j]? = s[j]? := by
  unfold addEdge
  cases hs : s[sid]? with
  | none => rfl
  | some sb => rw [List.getElem?_set_ne (fun hh => hne hh.symm)]

theorem addEdge_edgeAt_old (s : List StateB) (sid : Nat) (lbl : Label)
    (tg : Option Nat) (h : Nat × Nat) (e : EdgeB)
    (he : edgeAt s h = some e) :
    edgeAt (addEdge s sid lbl tg) h = some e := by
  by_cases hst : h.1 = sid
  · unfold edgeAt addEdge at *
    cases hs : s[sid]? with
    | none => rw [hst] at he ⊢; rw [hs] at he; cases he
    | some sb =>
      rw [hst] at he ⊢
      rw [hs] at he
      have hlt : sid < s.length := (List.getElem?_eq_some.mp hs).1
      rw [List.getElem?_set_eq hlt]
      simp only [Option.bind] at he ⊢
      have h2 : h.2 < sb.edges.length := (List.getElem?_eq_some.mp he).1
      rw [List.getElem?_append_left h2]
      exact he
  · unfold edgeAt
    rw [addEdge_get_ne _ _ _ _ _ hst]
    exact he

theorem addEdge_edgeAt_cases (s : List StateB) (sid : Nat) (lbl : Label)
    (tg : Option Nat) (h : Nat × Nat) (e : EdgeB)
    (he : edgeAt (addEdge s sid lbl tg) h = some e) :
    edgeAt s h = some e ∨ e = ⟨lbl, tg⟩ := by
  by_cases hst : h.1 = sid
  · unfold edgeAt addEdge at *
    cases hs : s[sid]? with
    | none =>
      rw [hs] at he
      exact Or.inl he
    | some sb =>
      rw [hs] at he
      rw [hst] at he ⊢
      have hlt : sid < s.length := (List.getElem?_eq_some.mp hs).1
      rw [List.getElem?_set_eq hlt] at he
      simp only [Option.bind] at he ⊢
      rw [hs]
      by_cases h2 : h.2 < sb.edges.length
      · rw [List.getElem?_append_left h2] at he
        exact Or.inl he
      · right
        have hgen : (sb.edges ++ [(⟨lbl, tg⟩ : EdgeB)])[h.2]? = some e := he
        by_cases h3 : h.2 = sb.edges.length
        · rw [h3, List.getElem?_concat_length] at hgen
          exact (Option.some_inj.mp hgen).symm
        · exfalso
          have : (sb.edges ++ [(⟨lbl, tg⟩ : EdgeB)]).length ≤ h.2 := by
            simp
            omega
          rw [List.getElem?_eq_none_iff.mpr this] at hgen
          cases hgen
  · unfold edgeAt at he ⊢
    rw [addEdge_get_ne _ _ _ _ _ hst] at he
    exact Or.inl he

theorem edgeAt_append_cases (states : List StateB) (sb : StateB)
    (h : Nat × Nat) (e : EdgeB) (he : edgeAt (states ++ [sb]) h = some e) :
    (h.1 < states.length ∧ edgeAt states h = some e) ∨
      (h.1 = states.length ∧ sb.edges[h.2]? = some e) := by
  have hlt : h.1 < states.length + 1 := by
    have := edgeAt_state_lt _ _ _ he
    simpa using this
  by_cases hc : h.1 < states.length
  · left
    exact ⟨hc, by rw [← edgeAt_append states sb h hc]; exact he⟩
  · right
    have heq : h.1 = states.length := by omega
    refine ⟨heq, ?_⟩
    unfold edgeAt at he
    rw [show h.1 = states.length from heq, List.getElem?_concat_length] at he
    exact he

theorem allHoles_cons (f : Frag) (frags : List Frag) :
    allHoles (f :: frags) = f.outs ++ allHoles frags := by
  simp [allHoles]

theorem mem_allHoles (frags : List Frag) (h : Nat × Nat) :
    h ∈ allHoles frags ↔ ∃ f ∈ frags, h ∈ f.outs := by
  simp [allHoles]

theorem singleton_getElem {α : Type} (x e : α) (j : Nat)
    (h : ([x] : List α)[j]? = some e) : e = x ∧ j = 0 := by
  cases j with
  | zero => simp at h; exact ⟨h.symm, rfl⟩
  | succ j => simp at h

theorem pair_getElem {α : Type} (x y e : α) (j : Nat)
    (h : ([x, y] : List α)[j]? = some e) :
    (j = 0 ∧ e = x) ∨ (j = 1 ∧ e = y) := by
  cases j with
  | zero => simp at h; exact Or.inl ⟨rfl, h.symm⟩
  | succ j =>
    cases j with
    | zero => simp at h; exact Or.inr ⟨rfl, h.symm⟩
    | succ j => simp at h

theorem hole_state_lt (states : List StateB) (frags : List Frag)
    (hhole : ∀ f ∈ frags, ∀ h ∈ f.outs, ∃ e, edgeAt states h = some e ∧ e.tgt = none)
    (h : Nat × Nat) (hm : h ∈ allHoles frags) : h.1 < states.length := by
  obtain ⟨f, hf, hout⟩ := (mem_allHoles frags h).mp hm
  obtain ⟨e, he, -⟩ := hhole f hf h hout
  exact edgeAt_state_lt _ _ _ he

theorem inv_push_atom (states : List StateB) (frags : List Frag) (lbl : Label)
    (hinv : BuildInv states frags) :
    BuildInv (states ++ [⟨[⟨lbl, none⟩]⟩])
      (⟨states.length, [(states.length, 0)]⟩ :: frags) := by
  obtain ⟨hlen, htgt, hstart, hhole, hnone, hnodup⟩ := hinv
  refine ⟨by simp, ?_, ?_, ?_, ?_, ?_⟩
  · intro h e he tg htg
    rcases edgeAt_append_cases _ _ _ _ he with ⟨hlt, hold⟩ | ⟨heq, hnew⟩
    · have := htgt h e hold tg htg
      simp
      omega
    · obtain ⟨hex, -⟩ := singleton_getElem _ _ _ hnew
      rw [hex] at htg
      cases htg
  · intro f hf
    rcases List.mem_cons.mp hf with h1 | h1
    · rw [h1]
      simp
    · have := hstart f h1
      simp
      omega
  · intro f hf h hm
    rcases List.mem_cons.mp hf with h1 | h1
    · rw [h1] at hm
      rcases List.mem_singleton.mp hm with h2
      rw [h2]
      refine ⟨⟨lbl, none⟩, ?_, rfl⟩
      rw [edgeAt_append_new]
      rfl
    · obtain ⟨e, he, hn⟩ := hhole f h1 h hm
      refine ⟨e, ?_, hn⟩
      rw [edgeAt_append _ _ _ (edgeAt_state_lt _ _ _ he)]
      exact he
  · intro h e he hn
    rw [allHoles_cons]
    rcases edgeAt_append_cases _ _ _ _ he with ⟨hlt, hold⟩ | ⟨heq, hnew⟩
    · exact List.mem_append_right _ (hnone h e hold hn)
    · obtain ⟨-, hj⟩ := singleton_getElem _ _ _ hnew
      apply List.mem_append_left
      have : h = (states.length, 0) := Prod.ext heq hj
      rw [this]
      exact List.mem_singleton.mpr rfl
  · rw [allHoles_cons]
    simp only [List.nodup_append]
    refine ⟨List.nodup_singleton _, hnodup, ?_⟩
    intro a ha hb
    rcases List.mem_singleton.mp ha with h1
    rw [h1] at hb
    have := hole_state_lt states frags hhole _ hb
    omega

theorem inv_concat (states : List StateB) (b a : Frag) (rest : List Frag)
    (hinv : BuildInv states (b :: a :: rest)) :
    BuildInv (patch states a.outs b.start) (⟨a.start, b.outs⟩ :: rest) := by
  obtain ⟨hlen, htgt, hstart, hhole, hnone, hnodup⟩ := hinv
  have hbst : b.start < states.length := hstart b (List.mem_cons_self _ _)
  have hast : a.start < states.length :=
    hstart a (List.mem_cons_of_mem _ (List.mem_cons_self _ _))
  have hdisj : ∀ h, h ∈ a.outs → h ∈ b.outs ++ allHoles rest → False := by
    intro h ha hbr
    have : allHoles (b :: a :: rest) = b.outs ++ (a.outs ++ allHoles rest) := by
      rw [allHoles_cons, allHoles_cons]
    rw [this] at hnodup
    rcases (List.nodup_append.mp hnodup) with ⟨-, hn2, hd⟩
    rcases List.mem_append.mp hbr with h1 | h1
    · exact hd h1 (List.mem_append_left _ ha)
    · rcases List.nodup_append.mp hn2 with ⟨-, -, hd2⟩
      exact hd2 ha h1
  refine ⟨by rw [patch_length]; exact hlen, ?_, ?_, ?_, ?_, ?_⟩
  · intro h e he tg htg
    rw [patch_length]
    by_cases hm : h ∈ a.outs
    · rw [patch_edgeAt_mem _ _ _ _ hm] at he
      cases he0 : edgeAt states h with
      | none => rw [he0] at he; cases he
      | some e0 =>
        rw [he0] at he
        simp at he
        rw [← he] at htg
        simp at htg
        omega
    · rw [patch_edgeAt_not_mem _ _ _ _ hm] at he
      exact htgt h e he tg htg
  · intro f hf
    rw [patch_length]
    rcases List.mem_cons.mp hf with h1 | h1
    · rw [h1]
      exact hast
    · exact hstart f (List.mem_cons_of_mem _ (List.mem_cons_of_mem _ h1))
  · intro f hf h hm
    have hnotin : h ∉ a.outs := by
      intro ha
      apply hdisj h ha
      rcases List.mem_cons.mp hf with h1 | h1
      · apply List.mem_append_left
        rw [h1] at hm
        exact hm
      · apply List.mem_append_right
        exact (mem_allHoles rest h).mpr ⟨f, h1, hm⟩
    rw [patch_edgeAt_not_mem _ _ _ _ hnotin]
    rcases List.mem_cons.mp hf with h1 | h1
    · rw [h1] at hm
      exact hhole b (List.mem_cons_self _ _) h hm
    · exact hhole f
        (List.mem_cons_of_mem _ (List.mem_cons_of_mem _ h1)) h hm
  · intro h e he hn
    have hnotin : h ∉ a.outs := by
      intro ha
      rw [patch_edgeAt_mem _ _ _ _ ha] at he
      cases he0 : edgeAt states h with
      | none => rw [he0] at he; cases he
      | some e0 =>
        rw [he0] at he
        simp at he
        rw [← he] at hn
        cases hn
    rw [patch_edgeAt_not_mem _ _ _ _ hnotin] at he
    have := hnone h e he hn
    rw [allHoles_cons, allHoles_cons] at this
    rw [allHoles_cons]
    rcases List.mem_append.mp this with h1 | h1
    · exact List.mem_append_left _ h1
    · rcases List.mem_append.mp h1 with h2 | h2
      · exact absurd h2 hnotin
      · exact List.mem_append_right _ h2
  · rw [allHoles_cons]
    have hold : allHoles (b :: a :: rest) = b.outs ++ (a.outs ++ allHoles rest) := by
      rw [allHoles_cons, allHoles_cons]
    rw [hold] at hnodup
    exact hnodup.sublist
      (List.Sublist.append_left (List.sublist_append_right _ _) _)

theorem inv_alt (states : List StateB) (b a : Frag) (rest : List Frag)
    (hinv : BuildInv states (b :: a :: rest)) :
    BuildInv (states ++ [⟨[⟨.Eps, some a.start⟩, ⟨.Eps, some b.start⟩]⟩])
      (⟨states.length, a.outs ++ b.outs⟩ :: rest) := by
  obtain ⟨hlen, htgt, hstart, hhole, hnone, hnodup⟩ := hinv
  have hbst : b.start < states.length := hstart b (List.mem_cons_self _ _)
  have hast : a.start < states.length :=
    hstart a (List.mem_cons_of_mem _ (List.mem_cons_self _ _))
  have hold : allHoles (b :: a :: rest) = b.outs ++ (a.outs ++ allHoles rest) := by
    rw [allHoles_cons, allHoles_cons]
  refine ⟨by simp, ?_, ?_, ?_, ?_, ?_⟩
  · intro h e he tg htg
    rcases edgeAt_append_cases _ _ _ _ he with ⟨hlt, ho⟩ | ⟨heq, hnew⟩
    · have := htgt h e ho tg htg
      simp
      omega
    · rcases pair_getElem _ _ _ _ hnew with ⟨-, hex⟩ | ⟨-, hex⟩ <;>
        rw [hex] at htg <;> cases htg <;> simp <;> omega
  · intro f hf
    rcases List.mem_cons.mp hf with h1 | h1
    · rw [h1]
      simp
    · have := hstart f
        (List.mem_cons_of_mem _ (List.mem_cons_of_mem _ h1))
      simp
      omega
  · intro f hf h hm
    have hmold : h ∈ allHoles (b :: a :: rest) := by
      rw [hold]
      rcases List.mem_cons.mp hf with h1 | h1
      · rw [h1] at hm
        rcases List.mem_append.mp hm with h2 | h2
        · exact List.mem_append_right _ (List.mem_append_left _ h2)
        · exact List.mem_append_left _ h2
      · exact List.mem_append_right _ (List.mem_append_right _
          ((mem_allHoles rest h).mpr ⟨f, h1, hm⟩))
    obtain ⟨f0, hf0, hout0⟩ := (mem_allHoles _ h).mp hmold
    obtain ⟨e, he, hn⟩ := hhole f0 hf0 h hout0
    refine ⟨e, ?_, hn⟩
    rw [edgeAt_append _ _ _ (edgeAt_state_lt _ _ _ he)]
    exact he
  · intro h e he hn
    rw [allHoles_cons]
    rcases edgeAt_append_cases _ _ _ _ he with ⟨hlt, ho⟩ | ⟨heq, hnew⟩
    · have := hnone h e ho hn
      rw [hold] at this
      rcases List.mem_append.mp this with h1 | h1
      · exact List.mem_append_left _ (List.mem_append_right _ h1)
      · rcases List.mem_append.mp h1 with h2 | h2
        · exact List.mem_append_left _ (List.mem_append_left _ h2)
        · exact List.mem_append_right _ h2
    · rcases pair_getElem _ _ _ _ hnew with ⟨-, hex⟩ | ⟨-, hex⟩ <;>
        rw [hex] at hn <;> cases hn
  · rw [allHoles_cons]
    rw [hold] at hnodup
    have hperm : List.Perm (b.outs ++ (a.outs ++ allHoles rest))
        ((a.outs ++ b.outs) ++ allHoles rest) := by
      rw [← List.append_assoc]
      exact (List.perm_append_comm).append_right _
    show ((a.outs ++ b.outs) ++ allHoles rest).Nodup
    exact hperm.nodup hnodup

theorem inv_loop (states : List StateB) (a : Frag) (rest : List Frag)
    (st2 : Nat) (hinv : BuildInv states (a :: rest))
    (hst2 : st2 = states.length ∨ st2 = a.start) :
    BuildInv
      (patch (states ++ [⟨[⟨.Eps, some a.start⟩, ⟨.Eps, none⟩]⟩]) a.outs
        states.length)
      (⟨st2, [(states.length, 1)]⟩ :: rest) := by
  obtain ⟨hlen, htgt, hstart, hhole, hnone, hnodup⟩ := hinv
  have hast : a.start < states.length := hstart a (List.mem_cons_self _ _)
  have hold : allHoles (a :: rest) = a.outs ++ allHoles rest := allHoles_cons _ _
  have houtlt : ∀ h ∈ a.outs, h.1 < states.length := by
    intro h hm
    obtain ⟨e, he, -⟩ := hhole a (List.mem_cons_self _ _) h hm
    exact edgeAt_state_lt _ _ _ he
  have hrestlt : ∀ h ∈ allHoles rest, h.1 < states.length := by
    intro h hm
    obtain ⟨f, hf, hout⟩ := (mem_allHoles _ _).mp hm
    obtain ⟨e, he, -⟩ := hhole f (List.mem_cons_of_mem _ hf) h hout
    exact edgeAt_state_lt _ _ _ he
  have hdisj : ∀ h ∈ a.outs, h ∉ allHoles rest := by
    rw [hold] at hnodup
    rcases List.nodup_append.mp hnodup with ⟨-, -, hd⟩
    exact hd
  have hlen2 : (patch (states ++ [⟨[⟨.Eps, some a.start⟩, ⟨.Eps, none⟩]⟩])
      a.outs states.length).length = states.length + 1 := by
    rw [patch_length]
    simp
  refine ⟨by omega, ?_, ?_, ?_, ?_, ?_⟩
  · intro h e he tg htg
    rw [hlen2]
    by_cases hm : h ∈ a.outs
    · rw [patch_edgeAt_mem _ _ _ _ hm,
        edgeAt_append _ _ _ (houtlt h hm)] at he
      cases he0 : edgeAt states h with
      | none => rw [he0] at he; cases he
      | some e0 =>
        rw [he0] at he
        simp at he
        rw [← he] at htg
        simp at htg
        omega
    · rw [patch_edgeAt_not_mem _ _ _ _ hm] at he
      rcases edgeAt_append_cases _ _ _ _ he with ⟨hlt, ho⟩ | ⟨heq, hnew⟩
      · have := htgt h e ho tg htg
        omega
      · rcases pair_getElem _ _ _ _ hnew with ⟨-, hex⟩ | ⟨-, hex⟩ <;>
          rw [hex] at htg
        · cases htg
          omega
        · cases htg
  · intro f hf
    rw [hlen2]
    rcases List.mem_cons.mp hf with h1 | h1
    · rw [h1]
      rcases hst2 with h2 | h2 <;> rw [h2] <;> simp <;> omega
    · have := hstart f (List.mem_cons_of_mem _ h1)
      omega
  · intro f hf h hm
    rcases List.mem_cons.mp hf with h1 | h1
    · rw [h1] at hm
      rcases List.mem_singleton.mp hm with h2
      rw [h2]
      have hni : (states.length, 1) ∉ a.outs := by
        intro hmem
        have := houtlt _ hmem
        simp at this
      rw [patch_edgeAt_not_mem _ _ _ _ hni, edgeAt_append_new]
      exact ⟨⟨.Eps, none⟩, rfl, rfl⟩
    · obtain ⟨e, he, hn⟩ := hhole f (List.mem_cons_of_mem _ h1) h hm
      have hmr : h ∈ allHoles rest := (mem_allHoles _ _).mpr ⟨f, h1, hm⟩
      have hni : h ∉ a.outs := fun hc => hdisj h hc hmr
      rw [patch_edgeAt_not_mem _ _ _ _ hni,
        edgeAt_append _ _ _ (edgeAt_state_lt _ _ _ he)]
      exact ⟨e, he, hn⟩
  · intro h e he hn
    rw [allHoles_cons]
    by_cases hm : h ∈ a.outs
    · rw [patch_edgeAt_mem _ _ _ _ hm,
        edgeAt_append _ _ _ (houtlt h hm)] at he
      cases he0 : edgeAt states h with
      | none => rw [he0] at he; cases he
      | some e0 =>
        rw [he0] at he
        simp at he
        rw [← he] at hn
        cases hn
    · rw [patch_edgeAt_not_mem _ _ _ _ hm] at he
      rcases edgeAt_append_cases _ _ _ _ he with ⟨hlt, ho⟩ | ⟨heq, hnew⟩
      · have := hnone h e ho hn
        rw [hold] at this
        rcases List.mem_append.mp this with h1 | h1
        · exact absurd h1 hm
        · exact List.mem_append_right _ h1
      · rcases pair_getElem _ _ _ _ hnew with ⟨-, hex⟩ | ⟨hj, hex⟩
        · rw [hex] at hn
          cases hn
        · apply List.mem_append_left
          have : h = (states.length, 1) := Prod.ext heq hj
          rw [this]
          exact List.mem_singleton.mpr rfl
  · rw [allHoles_cons]
    rw [hold] at hnodup
    rcases List.nodup_append.mp hnodup with ⟨-, hnr, -⟩
    show ([(states.length, 1)] ++ allHoles rest).Nodup
    rw [List.nodup_append]
    refine ⟨List.nodup_singleton _, hnr, ?_⟩
    intro x hx hxr
    rcases List.mem_singleton.mp hx with h1
    rw [h1] at hxr
    have := hrestlt _ hxr
    simp at this

theorem inv_qmark (states : List StateB) (a : Frag) (rest : List Frag)
    (hinv : BuildInv states (a :: rest)) :
    BuildInv (states ++ [⟨[⟨.Eps, some a.start⟩, ⟨.Eps, none⟩]⟩])
      (⟨states.length, a.outs ++ [(states.length, 1)]⟩ :: rest) := by
  obtain ⟨hlen, htgt, hstart, hhole, hnone, hnodup⟩ := hinv
  have hast : a.start < states.length := hstart a (List.mem_cons_self _ _)
  have hold : allHoles (a :: rest) = a.outs ++ allHoles rest := allHoles_cons _ _
  have houtlt : ∀ h ∈ a.outs, h.1 < states.length := by
    intro h hm
    obtain ⟨e, he, -⟩ := hhole a (List.mem_cons_self _ _) h hm
    exact edgeAt_state_lt _ _ _ he
  have hrestlt : ∀ h ∈ allHoles rest, h.1 < states.length := by
    intro h hm
    obtain ⟨f, hf, hout⟩ := (mem_allHoles _ _).mp hm
    obtain ⟨e, he, -⟩ := hhole f (List.mem_cons_of_mem _ hf) h hout
    exact edgeAt_state_lt _ _ _ he
  refine ⟨by simp, ?_, ?_, ?_, ?_, ?_⟩
  · intro h e he tg htg
    rcases edgeAt_append_cases _ _ _ _ he with ⟨hlt, ho⟩ | ⟨heq, hnew⟩
    · have := htgt h e ho tg htg
      simp
      omega
    · rcases pair_getElem _ _ _ _ hnew with ⟨-, hex⟩ | ⟨-, hex⟩ <;>
        rw [hex] at htg
      · cases htg
        simp
        omega
      · cases htg
  · intro f hf
    rcases List.mem_cons.mp hf with h1 | h1
    · rw [h1]
      simp
    · have := hstart f (List.mem_cons_of_mem _ h1)
      simp
      omega
  · intro f hf h hm
    rcases List.mem_cons.mp hf with h1 | h1
    · rw [h1] at hm
      rcases List.mem_append.mp hm with h2 | h2
      · obtain ⟨e, he, hn⟩ := hhole a (List.mem_cons_self _ _) h h2
        refine ⟨e, ?_, hn⟩
        rw [edgeAt_append _ _ _ (houtlt h h2)]
        exact he
      · rcases List.mem_singleton.mp h2 with h3
        rw [h3, edgeAt_append_new]
        exact ⟨⟨.Eps, none⟩, rfl, rfl⟩
    · obtain ⟨e, he, hn⟩ := hhole f (List.mem_cons_of_mem _ h1) h hm
      refine ⟨e, ?_, hn⟩
      rw [edgeAt_append _ _ _ (edgeAt_state_lt _ _ _ he)]
      exact he
  · intro h e he hn
    rw [allHoles_cons]
    rcases edgeAt_append_cases _ _ _ _ he with ⟨hlt, ho⟩ | ⟨heq, hnew⟩
    · have := hnone h e ho hn
      rw [hold] at this
      rcases List.mem_append.mp this with h1 | h1
      · exact List.mem_append_left _ (List.mem_append_left _ h1)
      · exact List.mem_append_right _ h1
    · rcases pair_getElem _ _ _ _ hnew with ⟨-, hex⟩ | ⟨hj, hex⟩
      · rw [hex] at hn
        cases hn
      · apply List.mem_append_left
        apply List.mem_append_right
        have : h = (states.length, 1) := Prod.ext heq hj
        rw [this]
        exact List.mem_singleton.mpr rfl
  · rw [allHoles_cons]
    rw [hold] at hnodup
    rcases List.nodup_append.mp hnodup with ⟨hna, hnr, hd⟩
    show ((a.outs ++ [(states.length, 1)]) ++ allHoles rest).Nodup
    rw [List.nodup_append]
    refine ⟨?_, hnr, ?_⟩
    · rw [List.nodup_append]
      refine ⟨hna, List.nodup_singleton _, ?_⟩
      intro x hx hx2
      rcases List.mem_singleton.mp hx2 with h1
      have := houtlt x hx
      rw [h1] at this
      simp at this
    · intro x hx hxr
      rcases List.mem_append.mp hx with h1 | h1
      · exact hd h1 hxr
      · rcases List.mem_singleton.mp h1 with h2
        rw [h2] at hxr
        have := hrestlt _ hxr
        simp at this

theorem nfaStep_inv (states : List StateB) (frags : List Frag) (i : Nat)
    (t : Token) (states2 : List StateB) (frags2 : List Frag)
    (h : nfaStep (states, frags) i t = .ok (states2, frags2))
    (hinv : BuildInv states frags) :
    BuildInv states2 frags2 ∧ states.length ≤ states2.length := by
  cases t with
  | Char b =>
    simp only [nfaStep, make_unary_frag] at h
    injection h with h2
    obtain ⟨hs, hf⟩ := Prod.mk.inj h2
    subst hs; subst hf
    exact ⟨inv_push_atom states frags _ hinv, by simp⟩
  | Dot =>
    simp only [nfaStep, make_unary_frag] at h
    injection h with h2
    obtain ⟨hs, hf⟩ := Prod.mk.inj h2
    subst hs; subst hf
    exact ⟨inv_push_atom states frags _ hinv, by simp⟩
  | Class ranges neg =>
    simp only [nfaStep, make_unary_frag] at h
    injection h with h2
    obtain ⟨hs, hf⟩ := Prod.mk.inj h2
    subst hs; subst hf
    exact ⟨inv_push_atom states frags _ hinv, by simp⟩
  | CapStart gid =>
    simp only [nfaStep, make_unary_frag] at h
    injection h with h2
    obtain ⟨hs, hf⟩ := Prod.mk.inj h2
    subst hs; subst hf
    exact ⟨inv_push_atom states frags _ hinv, by simp⟩
  | CapEnd gid =>
    simp only [nfaStep, make_unary_frag] at h
    injection h with h2
    obtain ⟨hs, hf⟩ := Prod.mk.inj h2
    subst hs; subst hf
    exact ⟨inv_push_atom states frags _ hinv, by simp⟩
  | Concat =>
    match frags, h with
    | b :: a :: rest, h =>
      simp only [nfaStep] at h
      injection h with h2
      obtain ⟨hs, hf⟩ := Prod.mk.inj h2
      subst hs; subst hf
      exact ⟨inv_concat states b a rest hinv, by rw [patch_length]⟩
    | [], h => simp only [nfaStep] at h; cases h
    | [a], h => simp only [nfaStep] at h; cases h
  | Alt =>
    match frags, h with
    | b :: a :: rest, h =>
      simp only [nfaStep] at h
      injection h with h2
      obtain ⟨hs, hf⟩ := Prod.mk.inj h2
      subst hs; subst hf
      exact ⟨inv_alt states b a rest hinv, by simp⟩
    | [], h => simp only [nfaStep] at h; cases h
    | [a], h => simp only [nfaStep] at h; cases h
  | Star =>
    match frags, h with
    | a :: rest, h =>
      simp only [nfaStep] at h
      injection h with h2
      obtain ⟨hs, hf⟩ := Prod.mk.inj h2
      subst hs; subst hf
      refine ⟨inv_loop states a rest _ hinv (Or.inl rfl), ?_⟩
      rw [patch_length]
      simp
    | [], h => simp only [nfaStep] at h; cases h
  | Plus =>
    match frags, h with
    | a :: rest, h =>
      simp only [nfaStep] at h
      injection h with h2
      obtain ⟨hs, hf⟩ := Prod.mk.inj h2
      subst hs; subst hf
      refine ⟨inv_loop states a rest _ hinv (Or.inr rfl), ?_⟩
      rw [patch_length]
      simp
    | [], h => simp only [nfaStep] at h; cases h
  | Qmark =>
    match frags, h with
    | a :: rest, h =>
      simp only [nfaStep] at h
      injection h with h2
      obtain ⟨hs, hf⟩ := Prod.mk.inj h2
      subst hs; subst hf
      exact ⟨inv_qmark states a rest hinv, by simp⟩
    | [], h => simp only [nfaStep] at h; cases h
  | LParen => simp only [nfaStep] at h; cases h
  | RParen => simp only [nfaStep] at h; cases h

theorem buildFold_inv (l : List (Nat × Token)) :
    ∀ (states : List StateB) (frags : List Frag) (states2 : List StateB)
      (frags2 : List Frag),
      l.foldlM (fun acc it => nfaStep acc it.1 it.2) (states, frags) =
        .ok (states2, frags2) →
      BuildInv states frags →
      BuildInv states2 frags2 ∧ states.length ≤ states2.length := by
  induction l with
  | nil =>
    intro s f s2 f2 h hinv
    simp only [List.foldlM] at h
    injection h with h2
    obtain ⟨hs, hf⟩ := Prod.mk.inj h2
    subst hs; subst hf
    exact ⟨hinv, le_refl _⟩
  | cons it rest ih =>
    intro s f s2 f2 h hinv
    rw [List.foldlM_cons] at h
    cases hstep : nfaStep (s, f) it.1 it.2 with
    | error e =>
      rw [hstep] at h
      cases h
    | ok acc2 =>
      rw [hstep] at h
      obtain ⟨a2s, a2f⟩ := acc2
      simp only [bind, Except.bind] at h
      obtain ⟨hinv2, hle⟩ := nfaStep_inv s f it.1 it.2 a2s a2f hstep hinv
      obtain ⟨hinv3, hle2⟩ := ih a2s a2f s2 f2 h hinv2
      exact ⟨hinv3, le_trans hle hle2⟩

theorem buildInv_init : BuildInv [⟨[]⟩] [] := by
  refine ⟨by simp, ?_, ?_, ?_, ?_, ?_⟩
  · intro h e he tg htg
    unfold edgeAt at he
    rcases h1 : h.1 with _ | j
    · rw [h1] at he
      simp at he
    · rw [h1] at he
      simp at he
  · intro f hf
    cases hf
  · intro f hf
    cases hf
  · intro h e he hn
    unfold edgeAt at he
    rcases h1 : h.1 with _ | j
    · rw [h1] at he
      simp at he
    · rw [h1] at he
      simp at he
  · simp [allHoles]

theorem mem_edges_to_edgeAt (s : List StateB) (sb : StateB) (e : EdgeB)
    (hsb : sb ∈ s) (he : e ∈ sb.edges) : ∃ h, edgeAt s h = some e := by
  obtain ⟨i, hi, hieq⟩ := List.mem_iff_getElem.mp hsb
  obtain ⟨j, hj, hjeq⟩ := List.mem_iff_getElem.mp he
  refine ⟨(i, j), ?_⟩
  unfold edgeAt
  rw [List.getElem?_eq_getElem hi]
  simp only [Option.bind]
  rw [List.getElem?_eq_getElem (hieq ▸ hj)]
  simp [hieq, hjeq]

theorem build_nfa_inv (post : List Token) (nfa : Nfa)
    (h : build_nfa post = .ok nfa) :
    nfa.start = 0 ∧ 1 ≤ nfa.accept ∧ nfa.accept < nfa.states.length ∧
    (∀ st ∈ nfa.states, ∀ e ∈ st.edges, e.2 < nfa.states.length) ∧
    nfa.states[nfa.accept]? = some ⟨[]⟩ := by
  unfold build_nfa at h
  simp only [bind, Except.bind] at h
  cases hf : post.enum.foldlM (fun acc it => nfaStep acc it.1 it.2)
      ([⟨[]⟩], ([] : List Frag)) with
  | error e => rw [hf] at h; cases h
  | ok acc =>
    rw [hf] at h
    obtain ⟨states, st⟩ := acc
    obtain ⟨hinv, -⟩ := buildFold_inv _ _ _ _ _ hf buildInv_init
    match st, h with
    | [], h => cases h
    | f1 :: f2 :: fr, h => cases h
    | [top], h =>
      obtain ⟨hlen, htgt, hstart, hhole, hnone, hnodup⟩ := hinv
      have hstarttop : top.start < states.length :=
        hstart top (List.mem_singleton.mpr rfl)
      have houtslt : ∀ hh ∈ top.outs, hh.1 < states.length := by
        intro hh hm
        obtain ⟨e, he, -⟩ := hhole top (List.mem_singleton.mpr rfl) hh hm
        exact edgeAt_state_lt _ _ _ he
      have houtshole : ∀ hh ∈ top.outs,
          ∃ e, edgeAt (states ++ [⟨[]⟩]) hh = some e ∧ e.tgt = none := by
        intro hh hm
        obtain ⟨e, he, hn⟩ := hhole top (List.mem_singleton.mpr rfl) hh hm
        exact ⟨e, by rw [edgeAt_append _ _ _ (houtslt hh hm)]; exact he, hn⟩
      -- every edge of the fully patched state vector has a valid target
      have hA2 : ∀ hh e, edgeAt (patch (states ++ [⟨[]⟩]) top.outs
          states.length) hh = some e →
          ∃ tg, e.tgt = some tg ∧ tg < states.length + 1 := by
        intro hh e he
        by_cases hm : hh ∈ top.outs
        · rw [patch_edgeAt_mem _ _ _ _ hm] at he
          cases he0 : edgeAt (states ++ [⟨[]⟩]) hh with
          | none => rw [he0] at he; cases he
          | some e0 =>
            rw [he0] at he
            simp at he
            refine ⟨states.length, ?_, by omega⟩
            rw [← he]
        · rw [patch_edgeAt_not_mem _ _ _ _ hm] at he
          cases hn : e.tgt with
          | some tg =>
            refine ⟨tg, rfl, ?_⟩
            rcases edgeAt_append_cases _ _ _ _ he with ⟨hlt, ho⟩ | ⟨heq, hnew⟩
            · have := htgt hh e ho tg hn
              omega
            · simp at hnew
          | none =>
            exfalso
            rcases edgeAt_append_cases _ _ _ _ he with ⟨hlt, ho⟩ | ⟨heq, hnew⟩
            · have := hnone hh e ho hn
              rw [allHoles_cons] at this
              rcases List.mem_append.mp this with h1 | h1
              · exact hm h1
              · simp [allHoles] at h1
            · simp at hnew
      have hA : ∀ hh e, edgeAt (if top.start ≠ 0 then
          addEdge (patch (states ++ [⟨[]⟩]) top.outs states.length) 0 .Eps
            (some top.start)
          else patch (states ++ [⟨[]⟩]) top.outs states.length) hh = some e →
          ∃ tg, e.tgt = some tg ∧ tg < states.length + 1 := by
        intro hh e he
        by_cases hc : top.start ≠ 0
        · rw [if_pos hc] at he
          rcases addEdge_edgeAt_cases _ _ _ _ _ _ he with ho | hnew
          · exact hA2 hh e ho
          · rw [hnew]
            exact ⟨top.start, rfl, by omega⟩
        · rw [if_neg hc] at he
          exact hA2 hh e he
      have hB : (if top.start ≠ 0 then
          addEdge (patch (states ++ [⟨[]⟩]) top.outs states.length) 0 .Eps
            (some top.start)
          else patch (states ++ [⟨[]⟩]) top.outs states.length)[
            states.length]? = some ⟨[]⟩ := by
        have hB1 : (states ++ [(⟨[]⟩ : StateB)])[states.length]? =
            some ⟨[]⟩ := List.getElem?_concat_length _ _
        have hB2 : (patch (states ++ [⟨[]⟩]) top.outs
            states.length)[states.length]? = some ⟨[]⟩ := by
          rw [patch_get_ne _ _ _ _ (fun hh hm => by
            have := houtslt hh hm
            omega)]
          exact hB1
        by_cases hc : top.start ≠ 0
        · rw [if_pos hc, addEdge_get_ne _ _ _ _ _ (by omega)]
          exact hB2
        · rw [if_neg hc]
          exact hB2
      have hC : (if top.start ≠ 0 then
          addEdge (patch (states ++ [⟨[]⟩]) top.outs states.length) 0 .Eps
            (some top.start)
          else patch (states ++ [⟨[]⟩]) top.outs states.length).length =
          states.length + 1 := by
        by_cases hc : top.start ≠ 0
        · rw [if_pos hc, addEdge_length, patch_length]
          simp
        · rw [if_neg hc, patch_length]
          simp
      have h3 : Except.ok (⟨finalize (if top.start ≠ 0 then
          addEdge (patch (states ++ [⟨[]⟩]) top.outs states.length) 0 .Eps
            (some top.start)
          else patch (states ++ [⟨[]⟩]) top.outs states.length), 0,
          states.length⟩ : Nfa) = Except.ok nfa := h
      injection h3 with h2
      rw [← h2]
      revert hA hB hC
      generalize (if top.start ≠ 0 then
          addEdge (patch (states ++ [⟨[]⟩]) top.outs states.length) 0 .Eps
            (some top.start)
          else patch (states ++ [⟨[]⟩]) top.outs states.length) = s3
      intro hA hB hC
      have hlenf : (finalize s3).length = states.length + 1 := by
        simp only [finalize, List.length_map]
        exact hC
      refine ⟨rfl, by simpa using hlen, ?_, ?_, ?_⟩
      · show states.length < (finalize s3).length
        omega
      · intro stF hstF e2 he2
        show e2.2 < (finalize s3).length
        rw [hlenf]
        obtain ⟨sb, hsb, hsbeq⟩ := List.mem_map.mp hstF
        rw [← hsbeq] at he2
        simp only at he2
        obtain ⟨e, hein, heeq⟩ := List.mem_map.mp he2
        obtain ⟨hh, hhe⟩ := mem_edges_to_edgeAt _ _ _ hsb hein
        obtain ⟨tg, htgeq, htglt⟩ := hA hh e hhe
        rw [← heeq]
        simp [htgeq]
        omega
      · show (finalize s3)[states.length]? = some ⟨[]⟩
        simp only [finalize, List.getElem?_map, hB]
        rfl


theorem except_bind_ok {α β γ : Type} (x : Except α β) (f : β → Except α γ)
    (r : γ) (h : x >>= f = .ok r) : ∃ v, x = .ok v ∧ f v = .ok r := by
  cases x with
  | error e => cases h
  | ok v => exact ⟨v, rfl, h⟩

theorem RegexNew_build (pat : List Nat) (re : Regex)
    (h : Regex.new pat = .ok re) :
    ∃ post nfa, build_nfa post = .ok nfa ∧ re.states = nfa.states ∧
      re.start = nfa.start ∧ re.accept = nfa.accept := by
  unfold Regex.new at h
  obtain ⟨toks, h1, h⟩ := except_bind_ok _ _ _ h
  obtain ⟨post, h2, h⟩ := except_bind_ok _ _ _ h
  obtain ⟨nfa, h3, h⟩ := except_bind_ok _ _ _ h
  injection h with h4
  exact ⟨post, nfa, h3, by rw [← h4], by rw [← h4], by rw [← h4]⟩

/-- Claim C8: for every pattern that compiles successfully, every edge's
target in the resulting NFA is a valid index into the state vector, and
the single accept state exists and has no outgoing edges. -/
theorem c8_nfa_invariants :
    ∀ (pat : List Nat) (re : Regex), Regex.new pat = .ok re →
      (∀ st ∈ re.states, ∀ e ∈ st.edges, e.2 < re.states.length) ∧
      re.accept < re.states.length ∧
      re.states[re.accept]? = some ⟨[]⟩ := by
  intro pat re h
  obtain ⟨post, nfa, hb, hs, hst, hac⟩ := RegexNew_build pat re h
  obtain ⟨-, -, hlt, hval, hacc⟩ := build_nfa_inv post nfa hb
  rw [hs, hac]
  exact ⟨hval, hlt, hacc⟩

/-- Witness for claim C8 at the compiled pattern `a`. -/
theorem c8_nfa_invariants_witness :
    (∀ st ∈ regexSingleA.states, ∀ e ∈ st.edges,
      e.2 < regexSingleA.states.length) ∧
    regexSingleA.accept < regexSingleA.states.length ∧
    regexSingleA.states[regexSingleA.accept]? = some ⟨[]⟩ :=
  c8_nfa_invariants [97] regexSingleA rfl

/-- Claim C9: compiling the empty pattern fails with `UnexpectedToken` at
position 0 (the NFA builder rejects an empty postfix sequence), and no
compiled regex has its start state equal to its accept state (start is
always state 0 and accept is the last-allocated state, index at least 1). -/
theorem c9_empty_pattern_rejected :
    Regex.new [] = .error ⟨.UnexpectedToken '$', 0⟩ ∧
    ∀ (pat : List Nat) (re : Regex), Regex.new pat = .ok re →
      re.start ≠ re.accept := by
  refine ⟨rfl, ?_⟩
  intro pat re h
  obtain ⟨post, nfa, hb, -, hst, hac⟩ := RegexNew_build pat re h
  obtain ⟨hstart0, hacc1, -, -, -⟩ := build_nfa_inv post nfa hb
  rw [hst, hac, hstart0]
  omega

/-- Witness for claim C9's universal part at the compiled pattern `a`. -/
theorem c9_empty_pattern_rejected_witness :
    regexSingleA.start ≠ regexSingleA.accept :=
  c9_empty_pattern_rejected.2 [97] regexSingleA rfl
